import Mathlib

/-!
Verification of the pivot-selection / assignment / banding / scoring engine
of doc2struct (src/doc2struct/main.py), shallowly embedded over exact
rationals.  Vectors are lists of rationals; numpy reductions (argmin,
argmax, min, max, quantile) are modelled by executable list functions with
the same first-occurrence tie-breaking; the seeded np.random.choice
fallback of the greedy loop is modelled by an explicit choice oracle that
returns an element of its non-empty argument list.
-/

set_option maxRecDepth 100000

/-- A vector: one embedded chunk, a list of rationals. -/
abbrev Vec := List ℚ
/-- Inner product, as computed by the numpy matrix products in main.py. -/
def dot (u v : Vec) : ℚ := (List.zipWith (fun a b => a * b) u v).sum
/-- Index and value of the first minimum of a list.  Models np.argmin,
which returns the first occurrence of the minimal value. -/
def argminP : List ℚ → Option (ℕ × ℚ)
  | [] => none
  | x :: xs =>
    match argminP xs with
    | none => some (0, x)
    | some (i, v) => if v < x then some (i + 1, v) else some (0, x)
/-- Index of the first minimum (0 on the empty list). -/
def argmin (l : List ℚ) : ℕ := ((argminP l).getD (0, 0)).1
/-- Index and value of the first maximum of a list.  Models np.argmax,
which returns the first occurrence of the maximal value. -/
def argmaxP : List ℚ → Option (ℕ × ℚ)
  | [] => none
  | x :: xs =>
    match argmaxP xs with
    | none => some (0, x)
    | some (i, v) => if x < v then some (i + 1, v) else some (0, x)
/-- Smallest element of a list (np.min); 0 on the empty list. -/
def listMin : List ℚ → ℚ
  | [] => 0
  | x :: xs => xs.foldl min x
/-- Largest element of a list (np.max); 0 on the empty list. -/
def listMax : List ℚ → ℚ
  | [] => 0
  | x :: xs => xs.foldl max x
/-- Elementwise mean of the corpus (vecs.mean(axis=0) in
greedy_farthest_pivots), not renormalized. -/
def centroid (vecs : List Vec) : Vec :=
  let d := (vecs.headD []).length
  let s := vecs.foldl (fun acc v => List.zipWith (fun a b => a + b) acc v)
    (List.replicate d 0)
  s.map (fun a => a / (vecs.length : ℚ))
/-- One nearest-sim update of the greedy loop:
nearest_sim = np.maximum(nearest_sim, vecs @ vecs[pick]). -/
def stepUpdate (vecs : List Vec) (ns : List ℚ) (pick : ℕ) : List ℚ :=
  List.zipWith max ns (vecs.map (fun v => dot v (vecs.getD pick [])))
/-- The for-loop of greedy_farthest_pivots over range(1, max_pivots).
The np.random.choice fallback on a duplicate pick is modelled by the
oracle choose; the Python code realises it with a seeded RNG that always
returns an element of its non-empty argument list. -/
def fpLoop (vecs : List Vec) (choose : List ℕ → ℕ) :
    ℕ → List ℕ → List ℚ → List ℕ
  | 0, pivots, _ => pivots
  | k + 1, pivots, ns =>
    let pick := argmin ns
    if pick ∈ pivots then
      let remaining := (List.range vecs.length).filter (fun i => decide (i ∉ pivots))
      if remaining.isEmpty then pivots
      else fpLoop vecs choose k (pivots ++ [choose remaining])
        (stepUpdate vecs ns (choose remaining))
    else fpLoop vecs choose k (pivots ++ [pick]) (stepUpdate vecs ns pick)
/-- The pivot indices of greedy_farthest_pivots in selection order, i.e.
the Python list pivots right before the final sorted(list(set(pivots))). -/
def selectionOrder (vecs : List Vec) (choose : List ℕ → ℕ) (max_pivots : ℕ) :
    List ℕ :=
  if vecs.length = 0 then []
  else
    let mp := min max_pivots (max 1 vecs.length)
    let sims := vecs.map (fun v => dot v (centroid vecs))
    let seed := argmin sims
    let ns := vecs.map (fun v => dot v (vecs.getD seed []))
    fpLoop vecs choose (mp - 1) [seed] ns
/-- greedy_farthest_pivots: the selection-order list is returned as
sorted(list(set(pivots))), i.e. deduplicated and sorted ascending. -/
def greedy_farthest_pivots (vecs : List Vec) (choose : List ℕ → ℕ)
    (max_pivots : ℕ) : List ℕ :=
  List.insertionSort (fun a b => a ≤ b) (selectionOrder vecs choose max_pivots).dedup
/-- assign_to_nearest_pivot: for each vector, the pair of np.argmax over
pivot similarities (first occurrence wins, i.e. ties break to the lowest
pivot local index) and distance = 1 - best similarity.  The two returned
arrays of the Python function are zipped into one list of pairs. -/
def assign_to_nearest_pivot (vecs : List Vec) (pivots : List ℕ) :
    List (ℕ × ℚ) :=
  if pivots.isEmpty then []
  else
    vecs.map (fun v =>
      let best := (argmaxP (pivots.map (fun p => dot v (vecs.getD p [])))).getD (0, 0)
      (best.1, 1 - best.2))
/-- np.quantile with the default linear interpolation, at one fraction q:
the value at position h = q * (m - 1) of the ascending sort. -/
def quantile (xs : List ℚ) (q : ℚ) : ℚ :=
  let s := List.insertionSort (fun a b : ℚ => a ≤ b) xs
  let h : ℚ := q * ((s.length : ℚ) - 1)
  let i : ℕ := (Int.floor h).toNat
  let lo := s.getD i 0
  let hi := s.getD (i + 1) lo
  lo + (h - (i : ℚ)) * (hi - lo)
/-- The inner band_of of compute_bands_for_pivot: the smallest index b
with x ≤ qs[b], and qs.length when x exceeds every cut-point. -/
def band_of (qs : List ℚ) (x : ℚ) : ℕ :=
  match qs with
  | [] => 0
  | q :: rest => if x ≤ q then 0 else band_of rest x + 1
/-- compute_bands_for_pivot: quantile cut-points of the group's distance
list, then the per-item band. -/
def compute_bands_for_pivot (dists : List ℚ) (quantiles : List ℚ) : List ℕ :=
  if dists.isEmpty then []
  else
    let qs := quantiles.map (quantile dists)
    dists.map (band_of qs)
/-- Descending-similarity order of the exact faiss inner-product search:
higher similarity first, ties broken by lower corpus index. -/
def faissRel (p q : ℕ × ℚ) : Prop := q.2 < p.2 ∨ (p.2 = q.2 ∧ p.1 ≤ q.1)
instance : DecidableRel faissRel := fun p q => by
  unfold faissRel
  infer_instance
/-- One row of index.search over an IndexFlatIP holding vecs: the k
highest similarities to the query, descending. -/
def faissTopK (vecs : List Vec) (q : Vec) (k : ℕ) : List ℚ :=
  let pairs := (List.range vecs.length).map (fun i => (i, dot q (vecs.getD i [])))
  ((List.insertionSort faissRel pairs).take k).map (fun p => p.2)
/-- knn_redundancy: per-vector mean similarity over the searched
neighbour columns, where the self column is dropped only when the search
returned more than one column, and the all-zero fallback fires only when
the resulting similarity matrix is empty. -/
def knn_redundancy (vecs : List Vec) (k : ℕ) : List ℚ :=
  let n := vecs.length
  let k_eff := min (k + 1) n
  let rows := vecs.map (fun q => faissTopK vecs q k_eff)
  let rows2 := if 1 < k_eff then rows.map (List.drop 1) else rows
  let cols := if 1 < k_eff then k_eff - 1 else k_eff
  if n * cols = 0 then List.replicate n 0
  else rows2.map (fun r => r.sum / (r.length : ℚ))
/-- The zero-variance guard 1e-8 of minmax_norm. -/
def EPS : ℚ := 1 / 100000000
/-- minmax_norm: (x - min) / (max - min), all-zero when max - min < 1e-8,
identity on the empty array. -/
def minmax_norm (x : List ℚ) : List ℚ :=
  if x.length = 0 then x
  else if listMax x - listMin x < EPS then x.map (fun _ => 0)
  else x.map (fun v => (v - listMin x) / (listMax x - listMin x))
/-- energy = novelty_norm * (1 - redundancy_norm), elementwise. -/
def energyOf (novelty_norm redundancy_norm : List ℚ) : List ℚ :=
  List.zipWith (fun a b => a * (1 - b)) novelty_norm redundancy_norm
/-- One output record of process_file, restricted to its numeric fields
(the text and source fields carry no engine content). -/
structure Record where
  id : ℕ
  pivot_id : ℕ
  pivot_local_index : ℕ
  band : ℕ
  novelty : ℚ
  redundancy : ℚ
  energy : ℚ
deriving DecidableEq
/-- The sort key of df.sort_values([pivot_local_index, band, energy],
ascending=[True, True, False]): local index ascending, then band
ascending, then energy descending. -/
def recLE (a b : Record) : Prop :=
  a.pivot_local_index < b.pivot_local_index ∨
    (a.pivot_local_index = b.pivot_local_index ∧
      (a.band < b.band ∨ (a.band = b.band ∧ b.energy ≤ a.energy)))
instance : DecidableRel recLE := fun a b => by
  unfold recLE
  infer_instance
instance : IsTotal Record recLE := by
  constructor
  intro a b
  unfold recLE
  rcases Nat.lt_trichotomy a.pivot_local_index b.pivot_local_index with h | h | h
  · exact Or.inl (Or.inl h)
  · rcases Nat.lt_trichotomy a.band b.band with hb | hb | hb
    · exact Or.inl (Or.inr ⟨h, Or.inl hb⟩)
    · rcases le_total b.energy a.energy with he | he
      · exact Or.inl (Or.inr ⟨h, Or.inr ⟨hb, he⟩⟩)
      · exact Or.inr (Or.inr ⟨h.symm, Or.inr ⟨hb.symm, he⟩⟩)
    · exact Or.inr (Or.inr ⟨h.symm, Or.inl hb⟩)
  · exact Or.inr (Or.inl h)
instance : IsTrans Record recLE := by
  constructor
  intro a b c hab hbc
  unfold recLE at hab hbc ⊢
  rcases hab with h1 | ⟨h1, h1b⟩
  · rcases hbc with h2 | ⟨h2, hrest⟩
    · exact Or.inl (lt_trans h1 h2)
    · exact Or.inl (h2 ▸ h1)
  · rcases hbc with h2 | ⟨h2, h2b⟩
    · exact Or.inl (h1 ▸ h2)
    · refine Or.inr ⟨h1.trans h2, ?_⟩
      rcases h1b with hb1 | ⟨hb1, he1⟩
      · rcases h2b with hb2 | ⟨hb2, hrest⟩
        · exact Or.inl (lt_trans hb1 hb2)
        · exact Or.inl (hb2 ▸ hb1)
      · rcases h2b with hb2 | ⟨hb2, he2⟩
        · exact Or.inl (hb1 ▸ hb2)
        · exact Or.inr ⟨hb1.trans hb2, le_trans he2 he1⟩
/-- df.sort_values([pivot_local_index, band, energy],
ascending=[True, True, False]) applied to the record list. -/
def sortRecords (rs : List Record) : List Record := List.insertionSort recLE rs
/-- NUM_PIVOTS of main.py. -/
def NUM_PIVOTS : ℕ := 12
/-- KNN of main.py. -/
def KNN : ℕ := 16
/-- BAND_QUANTILES of main.py. -/
def BAND_QUANTILES : List ℚ := [1/4, 1/2, 3/4]
/-- Exact ceiling of the square root, modelling int(np.ceil(np.sqrt(n))). -/
def ceilSqrt (n : ℕ) : ℕ :=
  if Nat.sqrt n * Nat.sqrt n = n then Nat.sqrt n else Nat.sqrt n + 1
/-- Per-chunk form of the masked scatter band_ids[mask] =
compute_bands_for_pivot(novelty_dist[mask], BAND_QUANTILES): chunk i
takes the band computed for its group (the chunks sharing its assignment,
in index order, exactly the mask order) at its rank in that group. -/
def bandIds (n : ℕ) (assign_idx : List ℕ) (novelty_dist : List ℚ) : List ℕ :=
  (List.range n).map (fun i =>
    let g := assign_idx.getD i 0
    let group := (List.range n).filter (fun j => decide (assign_idx.getD j 0 = g))
    let gdists := group.map (fun j => novelty_dist.getD j 0)
    (compute_bands_for_pivot gdists BAND_QUANTILES).getD
      (List.findIdx (fun j => j == i) group) 0)
/-- The record-building slice of process_file: pivots, assignment,
redundancy, normalization, banding and the records list built in chunk-id
order.  This list, in this order, is what the jsonl export writes line by
line. -/
def processRecords (vecs : List Vec) (choose : List ℕ → ℕ) : List Record :=
  let n := vecs.length
  let pivots := greedy_farthest_pivots vecs choose
    (min NUM_PIVOTS (max 1 (ceilSqrt n)))
  let asg := assign_to_nearest_pivot vecs pivots
  let assign_idx := asg.map (fun p => p.1)
  let novelty_dist := asg.map (fun p => p.2)
  let redundancy_sim := knn_redundancy vecs KNN
  let novelty_norm := minmax_norm novelty_dist
  let redundancy_norm := minmax_norm redundancy_sim
  let energy := energyOf novelty_norm redundancy_norm
  let band_ids := bandIds n assign_idx novelty_dist
  (List.range n).map (fun i =>
    { id := i
      pivot_id := pivots.getD (assign_idx.getD i 0) 0
      pivot_local_index := assign_idx.getD i 0
      band := band_ids.getD i 0
      novelty := novelty_norm.getD i 0
      redundancy := redundancy_norm.getD i 0
      energy := energy.getD i 0 })
/-- The pivot list exactly as process_file computes it:
greedy_farthest_pivots(vecs, min(NUM_PIVOTS, max(1, ceil(sqrt(n))))). -/
def pipelinePivots (vecs : List Vec) (choose : List ℕ → ℕ) : List ℕ :=
  greedy_farthest_pivots vecs choose
    (min NUM_PIVOTS (max 1 (ceilSqrt vecs.length)))
/-- A concrete admissible choice oracle: the head of the remaining list. -/
def chooseHead (l : List ℕ) : ℕ := l.headD 0

/-- A three-chunk unit-vector corpus whose farthest-point seed is the last
chunk: two copies of e1 and one e2. -/
def corpusA : List Vec := [[1, 0], [1, 0], [0, 1]]

/-- A three-chunk unit-vector corpus placing the lone e1 between two
copies of e2, so chunk ids and pivot local indices interleave. -/
def corpusB : List Vec := [[0, 1], [1, 0], [0, 1]]

theorem argminP_eq_none_iff (l : List ℚ) : argminP l = none ↔ l = [] := by
  cases l with
  | nil => simp [argminP]
  | cons x xs =>
    simp only [argminP]
    cases hx : argminP xs with
    | none => simp
    | some p => rcases p with ⟨i, v⟩; by_cases h : v < x <;> simp [h]
theorem argmaxP_eq_none_iff (l : List ℚ) : argmaxP l = none ↔ l = [] := by
  cases l with
  | nil => simp [argmaxP]
  | cons x xs =>
    simp only [argmaxP]
    cases hx : argmaxP xs with
    | none => simp
    | some p => rcases p with ⟨i, v⟩; by_cases h : x < v <;> simp [h]
theorem argminP_spec : ∀ (l : List ℚ) (i : ℕ) (v : ℚ), argminP l = some (i, v) →
    i < l.length ∧ l.getD i 0 = v ∧ ∀ j, j < l.length → v ≤ l.getD j 0 := by
  intro l
  induction l with
  | nil => intro i v h; simp [argminP] at h
  | cons x xs ih =>
    intro i v h
    cases hx : argminP xs with
    | none =>
      simp only [argminP, hx, Option.some.injEq, Prod.mk.injEq] at h
      obtain ⟨hi, hv⟩ := h
      have hxs : xs = [] := (argminP_eq_none_iff xs).mp hx
      subst hxs
      subst hi; subst hv
      refine ⟨by simp, by simp, ?_⟩
      intro j hj
      have hj0 : j = 0 := by
        simp only [List.length_cons, List.length_nil] at hj
        omega
      subst hj0; simp
    | some p =>
      rcases p with ⟨i0, v0⟩
      simp only [argminP, hx] at h
      obtain ⟨h1, h2, h3⟩ := ih i0 v0 hx
      by_cases hc : v0 < x
      · rw [if_pos hc] at h
        simp only [Option.some.injEq, Prod.mk.injEq] at h
        obtain ⟨hi, hv⟩ := h
        subst hi; subst hv
        refine ⟨by simpa using h1, by simpa using h2, ?_⟩
        intro j hj
        cases j with
        | zero => simpa using le_of_lt hc
        | succ j =>
          simp only [List.getD_cons_succ]
          exact h3 j (by simpa using hj)
      · rw [if_neg hc] at h
        simp only [Option.some.injEq, Prod.mk.injEq] at h
        obtain ⟨hi, hv⟩ := h
        subst hi; subst hv
        refine ⟨by simp, by simp, ?_⟩
        intro j hj
        cases j with
        | zero => simp
        | succ j =>
          simp only [List.getD_cons_succ]
          exact le_trans (not_lt.mp hc) (h3 j (by simpa using hj))
theorem argmaxP_spec : ∀ (l : List ℚ) (i : ℕ) (v : ℚ), argmaxP l = some (i, v) →
    i < l.length ∧ l.getD i 0 = v ∧ (∀ j, j < l.length → l.getD j 0 ≤ v) ∧
      ∀ j, j < i → l.getD j 0 < v := by
  intro l
  induction l with
  | nil => intro i v h; simp [argmaxP] at h
  | cons x xs ih =>
    intro i v h
    cases hx : argmaxP xs with
    | none =>
      simp only [argmaxP, hx, Option.some.injEq, Prod.mk.injEq] at h
      obtain ⟨hi, hv⟩ := h
      have hxs : xs = [] := (argmaxP_eq_none_iff xs).mp hx
      subst hxs
      subst hi; subst hv
      refine ⟨by simp, by simp, ?_, ?_⟩
      · intro j hj
        have hj0 : j = 0 := by
          simp only [List.length_cons, List.length_nil] at hj
          omega
        subst hj0; simp
      · intro j hj; omega
    | some p =>
      rcases p with ⟨i0, v0⟩
      simp only [argmaxP, hx] at h
      obtain ⟨h1, h2, h3, h4⟩ := ih i0 v0 hx
      by_cases hc : x < v0
      · rw [if_pos hc] at h
        simp only [Option.some.injEq, Prod.mk.injEq] at h
        obtain ⟨hi, hv⟩ := h
        subst hi; subst hv
        refine ⟨by simpa using h1, by simpa using h2, ?_, ?_⟩
        · intro j hj
          cases j with
          | zero => simpa using le_of_lt hc
          | succ j =>
            simp only [List.getD_cons_succ]
            exact h3 j (by simpa using hj)
        · intro j hj
          cases j with
          | zero => simpa using hc
          | succ j =>
            simp only [List.getD_cons_succ]
            exact h4 j (by omega)
      · rw [if_neg hc] at h
        simp only [Option.some.injEq, Prod.mk.injEq] at h
        obtain ⟨hi, hv⟩ := h
        subst hi; subst hv
        refine ⟨by simp, by simp, ?_, ?_⟩
        · intro j hj
          cases j with
          | zero => simp
          | succ j =>
            simp only [List.getD_cons_succ]
            exact le_trans (h3 j (by simpa using hj)) (not_lt.mp hc)
        · intro j hj; omega
theorem argmin_lt_length (l : List ℚ) (h : l ≠ []) : argmin l < l.length := by
  cases hx : argminP l with
  | none => exact absurd ((argminP_eq_none_iff l).mp hx) h
  | some p =>
    rcases p with ⟨i, v⟩
    have := (argminP_spec l i v hx).1
    simpa [argmin, hx] using this
theorem foldl_min_le (xs : List ℚ) :
    ∀ a : ℚ, xs.foldl min a ≤ a ∧ ∀ b ∈ xs, xs.foldl min a ≤ b := by
  induction xs with
  | nil => intro a; exact ⟨le_refl a, by simp⟩
  | cons y ys ih =>
    intro a
    refine ⟨?_, ?_⟩
    · exact le_trans (ih (min a y)).1 (min_le_left _ _)
    · intro b hb
      rcases List.mem_cons.mp hb with rfl | hb
      · exact le_trans (ih (min a b)).1 (min_le_right _ _)
      · exact (ih (min a y)).2 b hb
theorem foldl_le_max (xs : List ℚ) :
    ∀ a : ℚ, a ≤ xs.foldl max a ∧ ∀ b ∈ xs, b ≤ xs.foldl max a := by
  induction xs with
  | nil => intro a; exact ⟨le_refl a, by simp⟩
  | cons y ys ih =>
    intro a
    refine ⟨?_, ?_⟩
    · exact le_trans (le_max_left _ _) (ih (max a y)).1
    · intro b hb
      rcases List.mem_cons.mp hb with rfl | hb
      · exact le_trans (le_max_right _ _) (ih (max a b)).1
      · exact (ih (max a y)).2 b hb
theorem listMin_le (l : List ℚ) (x : ℚ) (hx : x ∈ l) : listMin l ≤ x := by
  cases l with
  | nil => simp at hx
  | cons y ys =>
    rcases List.mem_cons.mp hx with rfl | hx
    · exact (foldl_min_le ys x).1
    · exact (foldl_min_le ys y).2 x hx
theorem le_listMax (l : List ℚ) (x : ℚ) (hx : x ∈ l) : x ≤ listMax l := by
  cases l with
  | nil => simp at hx
  | cons y ys =>
    rcases List.mem_cons.mp hx with rfl | hx
    · exact (foldl_le_max ys x).1
    · exact (foldl_le_max ys y).2 x hx
theorem length_le_of_nodup_lt (l : List ℕ) (n : ℕ) (hnd : l.Nodup)
    (hlt : ∀ p ∈ l, p < n) : l.length ≤ n := by
  have hsub : l ⊆ List.range n := fun x hx => List.mem_range.mpr (hlt x hx)
  simpa using (hnd.subperm hsub).length_le
theorem fpLoop_spec (vecs : List Vec) (choose : List ℕ → ℕ)
    (hch : ∀ l : List ℕ, l ≠ [] → choose l ∈ l) :
    ∀ (k : ℕ) (pivots : List ℕ) (ns : List ℚ),
    pivots.Nodup → (∀ p ∈ pivots, p < vecs.length) → pivots ≠ [] →
    ns.length = vecs.length →
    (fpLoop vecs choose k pivots ns).Nodup ∧
      (∀ p ∈ fpLoop vecs choose k pivots ns, p < vecs.length) ∧
      (fpLoop vecs choose k pivots ns).length
        = min (pivots.length + k) vecs.length := by
  intro k
  induction k with
  | zero =>
    intro pivots ns hnd hlt hne hns
    have hlen : pivots.length ≤ vecs.length := length_le_of_nodup_lt _ _ hnd hlt
    refine ⟨hnd, hlt, ?_⟩
    simp only [fpLoop]
    omega
  | succ k ih =>
    intro pivots ns hnd hlt hne hns
    have hlen : pivots.length ≤ vecs.length := length_le_of_nodup_lt _ _ hnd hlt
    have hn0 : 0 < vecs.length := by
      rcases pivots with _ | ⟨p, ps⟩
      · exact absurd rfl hne
      · exact lt_of_le_of_lt (Nat.zero_le p) (hlt p (by simp))
    have hstep : ∀ pick : ℕ, pick < vecs.length → pick ∉ pivots →
        (fpLoop vecs choose k (pivots ++ [pick])
            (stepUpdate vecs ns pick)).Nodup ∧
          (∀ p ∈ fpLoop vecs choose k (pivots ++ [pick])
            (stepUpdate vecs ns pick), p < vecs.length) ∧
          (fpLoop vecs choose k (pivots ++ [pick])
              (stepUpdate vecs ns pick)).length
            = min (pivots.length + (k + 1)) vecs.length := by
      intro pick hpick hfresh
      have hnd2 : (pivots ++ [pick]).Nodup := by
        rw [List.nodup_append]
        refine ⟨hnd, List.nodup_singleton _, ?_⟩
        intro a ha hb
        rw [List.mem_singleton] at hb
        subst hb
        exact hfresh ha
      have hlt2 : ∀ p ∈ pivots ++ [pick], p < vecs.length := by
        intro p hp
        rcases List.mem_append.mp hp with hp | hp
        · exact hlt p hp
        · rw [List.mem_singleton] at hp; subst hp; exact hpick
      have hne2 : pivots ++ [pick] ≠ [] := by simp
      have hns2 : (stepUpdate vecs ns pick).length = vecs.length := by
        simp [stepUpdate, hns]
      obtain ⟨a, b, c⟩ := ih (pivots ++ [pick]) (stepUpdate vecs ns pick)
        hnd2 hlt2 hne2 hns2
      refine ⟨a, b, ?_⟩
      rw [c]
      simp only [List.length_append, List.length_singleton]
      omega
    by_cases hmem : argmin ns ∈ pivots
    · by_cases hrem :
        ((List.range vecs.length).filter (fun i => decide (i ∉ pivots))).isEmpty
      · have hcov : vecs.length ≤ pivots.length := by
          have hfil := List.isEmpty_iff.mp hrem
          have hall : ∀ i, i < vecs.length → i ∈ pivots := by
            intro i hi
            by_contra hni
            have : i ∈ (List.range vecs.length).filter
                (fun i => decide (i ∉ pivots)) := by
              rw [List.mem_filter]
              exact ⟨List.mem_range.mpr hi, by simpa using hni⟩
            rw [hfil] at this
            simp at this
          have hsub : List.range vecs.length ⊆ pivots := by
            intro x hx
            exact hall x (List.mem_range.mp hx)
          simpa using ((List.nodup_range vecs.length).subperm hsub).length_le
        have hres : fpLoop vecs choose (k + 1) pivots ns = pivots := by
          simp only [fpLoop]
          rw [if_pos hmem, if_pos hrem]
        rw [hres]
        refine ⟨hnd, hlt, ?_⟩
        omega
      · have hremne :
            (List.range vecs.length).filter (fun i => decide (i ∉ pivots)) ≠ [] := by
          intro hcon
          rw [hcon] at hrem
          simp at hrem
        have hpick2 := hch _ hremne
        rw [List.mem_filter] at hpick2
        obtain ⟨hin, hnotin⟩ := hpick2
        have hlt2 : choose ((List.range vecs.length).filter
            (fun i => decide (i ∉ pivots))) < vecs.length := List.mem_range.mp hin
        have hfresh2 : choose ((List.range vecs.length).filter
            (fun i => decide (i ∉ pivots))) ∉ pivots := by simpa using hnotin
        have hres : fpLoop vecs choose (k + 1) pivots ns
            = fpLoop vecs choose k
              (pivots ++ [choose ((List.range vecs.length).filter
                (fun i => decide (i ∉ pivots)))])
              (stepUpdate vecs ns (choose ((List.range vecs.length).filter
                (fun i => decide (i ∉ pivots))))) := by
          simp only [fpLoop]
          rw [if_pos hmem, if_neg hrem]
        rw [hres]
        exact hstep _ hlt2 hfresh2
    · have hpicklt : argmin ns < vecs.length := by
        have hnsne : ns ≠ [] := by
          intro hcon
          rw [hcon] at hns
          simp at hns
          omega
        have := argmin_lt_length ns hnsne
        omega
      have hres : fpLoop vecs choose (k + 1) pivots ns
          = fpLoop vecs choose k (pivots ++ [argmin ns])
            (stepUpdate vecs ns (argmin ns)) := by
        simp only [fpLoop]
        rw [if_neg hmem]
      rw [hres]
      exact hstep _ hpicklt hmem
theorem selectionOrder_spec (vecs : List Vec) (choose : List ℕ → ℕ)
    (max_pivots : ℕ) (hch : ∀ l : List ℕ, l ≠ [] → choose l ∈ l)
    (hn : 0 < vecs.length) (hmp : 1 ≤ max_pivots) :
    (selectionOrder vecs choose max_pivots).Nodup ∧
      (∀ p ∈ selectionOrder vecs choose max_pivots, p < vecs.length) ∧
      (selectionOrder vecs choose max_pivots).length
        = min max_pivots vecs.length := by
  have hne : ¬ vecs.length = 0 := by omega
  have hsimsne : vecs.map (fun v => dot v (centroid vecs)) ≠ [] := by
    rw [← List.length_pos]
    simpa using hn
  have hseedlt : argmin (vecs.map fun v => dot v (centroid vecs)) < vecs.length := by
    have := argmin_lt_length _ hsimsne
    simpa using this
  have hres : selectionOrder vecs choose max_pivots
      = fpLoop vecs choose (min max_pivots (max 1 vecs.length) - 1)
        [argmin (vecs.map fun v => dot v (centroid vecs))]
        (vecs.map fun v => dot v
          (vecs.getD (argmin (vecs.map fun v => dot v (centroid vecs))) [])) := by
    simp only [selectionOrder, if_neg hne]
  obtain ⟨a, b, c⟩ := fpLoop_spec vecs choose hch
    (min max_pivots (max 1 vecs.length) - 1)
    [argmin (vecs.map fun v => dot v (centroid vecs))]
    (vecs.map fun v => dot v
      (vecs.getD (argmin (vecs.map fun v => dot v (centroid vecs))) []))
    (List.nodup_singleton _)
    (by intro p hp; rw [List.mem_singleton] at hp; subst hp; exact hseedlt)
    (by simp) (by simp)
  rw [hres]
  refine ⟨a, b, ?_⟩
  rw [c]
  simp only [List.length_singleton]
  omega
theorem greedy_perm (vecs : List Vec) (choose : List ℕ → ℕ) (max_pivots : ℕ)
    (hnd : (selectionOrder vecs choose max_pivots).Nodup) :
    (greedy_farthest_pivots vecs choose max_pivots).Perm
      (selectionOrder vecs choose max_pivots) := by
  unfold greedy_farthest_pivots
  rw [hnd.dedup]
  exact List.perm_insertionSort _ _
theorem greedy_spec (vecs : List Vec) (choose : List ℕ → ℕ) (max_pivots : ℕ)
    (hch : ∀ l : List ℕ, l ≠ [] → choose l ∈ l)
    (hn : 0 < vecs.length) (hmp : 1 ≤ max_pivots) :
    (greedy_farthest_pivots vecs choose max_pivots).Nodup ∧
      (∀ p ∈ greedy_farthest_pivots vecs choose max_pivots, p < vecs.length) ∧
      (greedy_farthest_pivots vecs choose max_pivots).length
        = min max_pivots vecs.length := by
  obtain ⟨a, b, c⟩ := selectionOrder_spec vecs choose max_pivots hch hn hmp
  have hperm := greedy_perm vecs choose max_pivots a
  refine ⟨hperm.nodup_iff.mpr a, ?_, ?_⟩
  · intro p hp
    exact b p (hperm.subset hp)
  · rw [hperm.length_eq, c]
theorem greedy_sorted_lt (vecs : List Vec) (choose : List ℕ → ℕ)
    (max_pivots : ℕ) :
    List.Sorted (fun a b : ℕ => a < b)
      (greedy_farthest_pivots vecs choose max_pivots) := by
  have hle : List.Sorted (fun a b : ℕ => a ≤ b)
      (greedy_farthest_pivots vecs choose max_pivots) :=
    List.sorted_insertionSort _ _
  have hnd : (greedy_farthest_pivots vecs choose max_pivots).Nodup := by
    have hperm := List.perm_insertionSort (fun a b : ℕ => a ≤ b)
      (selectionOrder vecs choose max_pivots).dedup
    exact hperm.nodup_iff.mpr (List.nodup_dedup _)
  exact (hle.and hnd).imp (fun h => lt_of_le_of_ne h.1 h.2)

theorem chooseHead_mem : ∀ l : List ℕ, l ≠ [] → chooseHead l ∈ l := by
  intro l hl
  cases l with
  | nil => exact absurd rfl hl
  | cons x xs => simp [chooseHead]

theorem one_le_ceilSqrt (n : ℕ) (hn : 1 ≤ n) : 1 ≤ ceilSqrt n := by
  unfold ceilSqrt
  by_cases h : Nat.sqrt n * Nat.sqrt n = n
  · rw [if_pos h]
    have := Nat.sqrt_pos.mpr hn
    omega
  · rw [if_neg h]
    omega

theorem ceilSqrt_le (n : ℕ) (hn : 1 ≤ n) : ceilSqrt n ≤ n := by
  unfold ceilSqrt
  by_cases h : Nat.sqrt n * Nat.sqrt n = n
  · rw [if_pos h]
    exact Nat.sqrt_le_self n
  · rw [if_neg h]
    have h2 : 1 < n := by
      by_contra hcon
      have hone : n = 1 := by omega
      subst hone
      exact h (by decide)
    have := Nat.sqrt_lt_self h2
    omega

theorem band_of_mono (qs : List ℚ) (x y : ℚ) (hxy : x ≤ y) :
    band_of qs x ≤ band_of qs y := by
  induction qs with
  | nil => simp [band_of]
  | cons q rest ih =>
    simp only [band_of]
    by_cases hy : y ≤ q
    · rw [if_pos (le_trans hxy hy), if_pos hy]
    · by_cases hx : x ≤ q
      · rw [if_pos hx, if_neg hy]
        omega
      · rw [if_neg hx, if_neg hy]
        omega

theorem minmax_norm_length (x : List ℚ) : (minmax_norm x).length = x.length := by
  unfold minmax_norm
  split
  · rfl
  · split <;> simp

theorem minmax_norm_bounds (x : List ℚ) (i : ℕ) (hi : i < x.length) :
    0 ≤ (minmax_norm x).getD i 0 ∧ (minmax_norm x).getD i 0 ≤ 1 := by
  have hx0 : ¬ x.length = 0 := by omega
  have hmem : x[i] ∈ x := List.getElem_mem hi
  have hlo : listMin x ≤ x[i] := listMin_le x _ hmem
  have hhi : x[i] ≤ listMax x := le_listMax x _ hmem
  by_cases hz : listMax x - listMin x < EPS
  · have hres : minmax_norm x = x.map (fun _ => 0) := by
      unfold minmax_norm
      rw [if_neg hx0, if_pos hz]
    rw [hres, List.getD_eq_getElem _ _ (by simpa using hi), List.getElem_map]
    norm_num
  · have hres : minmax_norm x
        = x.map (fun v => (v - listMin x) / (listMax x - listMin x)) := by
      unfold minmax_norm
      rw [if_neg hx0, if_neg hz]
    have hpos : 0 < listMax x - listMin x := by
      have h1 : EPS ≤ listMax x - listMin x := not_lt.mp hz
      have h2 : 0 < EPS := by norm_num [EPS]
      linarith
    rw [hres, List.getD_eq_getElem _ _ (by simpa using hi), List.getElem_map]
    constructor
    · apply div_nonneg <;> linarith
    · rw [div_le_one hpos]
      linarith

theorem minmax_norm_zero_var (x : List ℚ) (i : ℕ) (hi : i < x.length)
    (hz : listMax x - listMin x < EPS) : (minmax_norm x).getD i 0 = 0 := by
  have hx0 : ¬ x.length = 0 := by omega
  have hres : minmax_norm x = x.map (fun _ => 0) := by
    unfold minmax_norm
    rw [if_neg hx0, if_pos hz]
  rw [hres, List.getD_eq_getElem _ _ (by simpa using hi), List.getElem_map]

theorem two_dot_le (u : Vec) : ∀ v : Vec, u.length = v.length →
    2 * dot u v ≤ dot u u + dot v v := by
  induction u with
  | nil =>
    intro v h
    cases v with
    | nil => simp [dot]
    | cons b vs => simp at h
  | cons a us ih =>
    intro v h
    cases v with
    | nil => simp at h
    | cons b vs =>
      have h2 : us.length = vs.length := by simpa using h
      have hrec := ih vs h2
      have hsq : 0 ≤ (a - b) ^ 2 := sq_nonneg _
      simp only [dot, List.zipWith_cons_cons, List.sum_cons] at hrec ⊢
      nlinarith [hrec, hsq]

theorem dot_le_one (u v : Vec) (h : u.length = v.length)
    (hu : dot u u = 1) (hv : dot v v = 1) : dot u v ≤ 1 := by
  have := two_dot_le u v h
  rw [hu, hv] at this
  linarith

/-- Claim C9: on the empty corpus (N = 0) greedy_farthest_pivots returns
the empty list for every max_pivots and every choice oracle, instead of
raising an error. -/
theorem C9_empty_corpus_pivots (choose : List ℕ → ℕ) (max_pivots : ℕ) :
    greedy_farthest_pivots [] choose max_pivots = [] := rfl

/-- Claim C10: for every vector matrix, the assigner called with an empty
pivot list returns the empty assignment/distance list instead of raising
an error. -/
theorem C10_assign_empty_pivots (vecs : List Vec) :
    assign_to_nearest_pivot vecs [] = [] := rfl

/-- Claim C1 (counterexample): on corpusA with max_pivots = 2 the
selection order is [2, 0] (chunk 2 is the seed, chunk 0 the second pick),
but the stored pivot list is the ascending [0, 2]: the pivot at local
index 0 is chunk 0, not the first-selected chunk 2, so local_index does
not equal the rank in selection order. -/
theorem C1_counterexample :
    selectionOrder corpusA chooseHead 2 = [2, 0] ∧
      greedy_farthest_pivots corpusA chooseHead 2 = [0, 2] ∧
      greedy_farthest_pivots corpusA chooseHead 2
        ≠ selectionOrder corpusA chooseHead 2 :=
  ⟨by with_unfolding_all decide, by with_unfolding_all decide,
    by with_unfolding_all decide⟩

/-- Claim C1 (amended): the stored pivot list is strictly ascending, so a
pivot's local_index (its position in the stored list, the index
process_file pairs with every chunk) is its rank in the ascending order of
pivot chunk ids; the selection order is discarded by the final
sorted(list(set(...))) and does not define local_index. -/
theorem C1_local_index_is_sorted_rank (vecs : List Vec)
    (choose : List ℕ → ℕ) (max_pivots : ℕ) :
    List.Sorted (fun a b : ℕ => a < b)
      (greedy_farthest_pivots vecs choose max_pivots) :=
  greedy_sorted_lt vecs choose max_pivots

/-- Claim C2 (code bug): on the single-vector corpus [[1]] the raw
per-chunk redundancy is 1 (the averaged self similarity), not 0: the
search returns one column holding the self match, the drop-self branch
requires more than one column, and the all-zero fallback requires an
empty similarity matrix, so the self match is never dropped. -/
theorem C2_single_vector_redundancy_is_one :
    knn_redundancy [[1]] KNN = [1] := by with_unfolding_all decide

/-- Claim C3 (counterexample): on corpusB the record sequence written to
the jsonl export (the records list, in chunk-id order) carries the
pivot_local_index sequence [0, 1, 0], which violates the ascending
local_index / ascending band / descending energy contract order. -/
theorem C3_counterexample :
    (processRecords corpusB chooseHead).map (fun r => r.pivot_local_index)
        = [0, 1, 0] ∧
      ¬ List.Pairwise recLE (processRecords corpusB chooseHead) :=
  ⟨by with_unfolding_all decide, by with_unfolding_all decide⟩

/-- Claim C3 (amended): the records handed to the jsonl export are in
ascending chunk-id order (record i has id i), while the sorted DataFrame
(the source of train.csv and the previews) is ordered by pivot
local_index ascending, then band ascending, then energy descending. -/
theorem C3_jsonl_id_order_and_sorted_dataframe (vecs : List Vec)
    (choose : List ℕ → ℕ) :
    (processRecords vecs choose).map (fun r => r.id)
        = List.range vecs.length ∧
      List.Sorted recLE (sortRecords (processRecords vecs choose)) := by
  constructor
  · simp only [processRecords, List.map_map]
    show List.map (fun i : ℕ => i) (List.range vecs.length)
      = List.range vecs.length
    simp
  · exact List.sorted_insertionSort recLE _

/-- Claim C4: for every corpus with N ≥ 1, every max_pivots ≥ 1 and any
admissible choice oracle, the selector returns a duplicate-free list of
indices in [0, N) with 1 ≤ length ≤ min(max_pivots, N); the pipeline call
with max_pivots = min(NUM_PIVOTS, max(1, ceil(sqrt(N)))) returns exactly
min(NUM_PIVOTS, ceil(sqrt(N))) pivots. -/
theorem C4_pivot_count (vecs : List Vec) (choose : List ℕ → ℕ)
    (max_pivots : ℕ) (hch : ∀ l : List ℕ, l ≠ [] → choose l ∈ l)
    (hn : 1 ≤ vecs.length) (hmp : 1 ≤ max_pivots) :
    (greedy_farthest_pivots vecs choose max_pivots).Nodup ∧
      (∀ p ∈ greedy_farthest_pivots vecs choose max_pivots, p < vecs.length) ∧
      1 ≤ (greedy_farthest_pivots vecs choose max_pivots).length ∧
      (greedy_farthest_pivots vecs choose max_pivots).length
        ≤ min max_pivots vecs.length ∧
      (pipelinePivots vecs choose).length
        = min NUM_PIVOTS (ceilSqrt vecs.length) := by
  obtain ⟨a, b, c⟩ := greedy_spec vecs choose max_pivots hch hn hmp
  have hcs1 : 1 ≤ ceilSqrt vecs.length := one_le_ceilSqrt _ hn
  have hcsn : ceilSqrt vecs.length ≤ vecs.length := ceilSqrt_le _ hn
  have hnp : NUM_PIVOTS = 12 := rfl
  have hmp2 : 1 ≤ min NUM_PIVOTS (max 1 (ceilSqrt vecs.length)) := by omega
  obtain ⟨a2, b2, c2⟩ := greedy_spec vecs choose
    (min NUM_PIVOTS (max 1 (ceilSqrt vecs.length))) hch hn hmp2
  refine ⟨a, b, by omega, by omega, ?_⟩
  show (greedy_farthest_pivots vecs choose
    (min NUM_PIVOTS (max 1 (ceilSqrt vecs.length)))).length = _
  omega

/-- Claim C4 witness: the hypotheses hold for corpusA (N = 3), the head
oracle and max_pivots = 2, and the instantiated bounds follow. -/
theorem C4_pivot_count_witness :
    (greedy_farthest_pivots corpusA chooseHead 2).Nodup ∧
      1 ≤ (greedy_farthest_pivots corpusA chooseHead 2).length ∧
      (greedy_farthest_pivots corpusA chooseHead 2).length
        ≤ min 2 corpusA.length ∧
      (pipelinePivots corpusA chooseHead).length
        = min NUM_PIVOTS (ceilSqrt corpusA.length) := by
  obtain ⟨a, b, c, d, e⟩ := C4_pivot_count corpusA chooseHead 2 chooseHead_mem
    (by with_unfolding_all decide) (by with_unfolding_all decide)
  exact ⟨a, c, d, e⟩

/-- Claim C6: within one pivot group, band assignment is monotone in
residual distance: a strictly smaller distance receives a band at most as
large, for every distance list and quantile list. -/
theorem C6_bands_monotone (dists quantiles : List ℚ) (i j : ℕ)
    (hi : i < dists.length) (hj : j < dists.length)
    (hij : dists.getD i 0 < dists.getD j 0) :
    (compute_bands_for_pivot dists quantiles).getD i 0
      ≤ (compute_bands_for_pivot dists quantiles).getD j 0 := by
  have hne : dists.isEmpty = false := by
    cases hd : dists.isEmpty
    · rfl
    · rw [List.isEmpty_iff.mp hd] at hi
      simp at hi
  have hres : compute_bands_for_pivot dists quantiles
      = dists.map (band_of (quantiles.map (quantile dists))) := by
    simp only [compute_bands_for_pivot, hne, Bool.false_eq_true, if_false]
  rw [hres,
    List.getD_eq_getElem _ _ (by simpa using hi),
    List.getD_eq_getElem _ _ (by simpa using hj)]
  simp only [List.getElem_map]
  apply band_of_mono
  rw [List.getD_eq_getElem _ _ hi, List.getD_eq_getElem _ _ hj] at hij
  exact le_of_lt hij

/-- Claim C6 witness: on the distance list [0, 1/2, 1] with the pipeline
quantiles, positions 0 and 2 satisfy the strict distance hypothesis and
the band comparison follows. -/
theorem C6_bands_monotone_witness :
    ([0, 1/2, 1] : List ℚ).getD 0 0 < ([0, 1/2, 1] : List ℚ).getD 2 0 ∧
      (compute_bands_for_pivot [0, 1/2, 1] BAND_QUANTILES).getD 0 0
        ≤ (compute_bands_for_pivot [0, 1/2, 1] BAND_QUANTILES).getD 2 0 :=
  ⟨by with_unfolding_all decide, C6_bands_monotone [0, 1/2, 1] BAND_QUANTILES 0 2
    (by with_unfolding_all decide) (by with_unfolding_all decide)
    (by with_unfolding_all decide)⟩

theorem assign_spec (vecs : List Vec) (pivots : List ℕ)
    (hp : pivots ≠ []) (i : ℕ) (hi : i < vecs.length) :
    (assign_to_nearest_pivot vecs pivots).length = vecs.length ∧
      ((assign_to_nearest_pivot vecs pivots).getD i (0, 0)).1 < pivots.length ∧
      (∀ j, j < pivots.length →
        (pivots.map (fun p => dot (vecs.getD i []) (vecs.getD p []))).getD j 0
          ≤ (pivots.map (fun p => dot (vecs.getD i []) (vecs.getD p []))).getD
              ((assign_to_nearest_pivot vecs pivots).getD i (0, 0)).1 0) ∧
      (∀ j, j < ((assign_to_nearest_pivot vecs pivots).getD i (0, 0)).1 →
        (pivots.map (fun p => dot (vecs.getD i []) (vecs.getD p []))).getD j 0
          < (pivots.map (fun p => dot (vecs.getD i []) (vecs.getD p []))).getD
              ((assign_to_nearest_pivot vecs pivots).getD i (0, 0)).1 0) ∧
      ((assign_to_nearest_pivot vecs pivots).getD i (0, 0)).2
        = 1 - (pivots.map (fun p => dot (vecs.getD i []) (vecs.getD p []))).getD
            ((assign_to_nearest_pivot vecs pivots).getD i (0, 0)).1 0 := by
  have hemp : pivots.isEmpty = false := by
    cases hpe : pivots.isEmpty
    · rfl
    · exact absurd (List.isEmpty_iff.mp hpe) hp
  have hassign : assign_to_nearest_pivot vecs pivots
      = vecs.map (fun v =>
          (((argmaxP (pivots.map (fun p => dot v (vecs.getD p [])))).getD (0, 0)).1,
            1 - ((argmaxP (pivots.map (fun p => dot v (vecs.getD p [])))).getD
              (0, 0)).2)) := by
    simp only [assign_to_nearest_pivot, hemp, Bool.false_eq_true, if_false]
  have hlen : (assign_to_nearest_pivot vecs pivots).length = vecs.length := by
    rw [hassign, List.length_map]
  have hiv : vecs.getD i [] = vecs[i] := List.getD_eq_getElem _ _ hi
  have hget : (assign_to_nearest_pivot vecs pivots).getD i (0, 0)
      = (((argmaxP (pivots.map (fun p =>
            dot (vecs.getD i []) (vecs.getD p [])))).getD (0, 0)).1,
          1 - ((argmaxP (pivots.map (fun p =>
            dot (vecs.getD i []) (vecs.getD p [])))).getD (0, 0)).2) := by
    rw [hassign, List.getD_eq_getElem _ _ (by simpa using hi), List.getElem_map,
      hiv]
  have hsims_ne : pivots.map (fun p => dot (vecs.getD i []) (vecs.getD p []))
      ≠ [] := by
    simpa using hp
  cases hq : argmaxP (pivots.map (fun p => dot (vecs.getD i []) (vecs.getD p [])))
    with
  | none => exact absurd ((argmaxP_eq_none_iff _).mp hq) hsims_ne
  | some q =>
    rcases q with ⟨b, val⟩
    obtain ⟨hb, hvb, hmax, hfirst⟩ := argmaxP_spec _ b val hq
    rw [hget, hq]
    simp only [Option.getD_some]
    refine ⟨hlen, ?_, ?_, ?_, ?_⟩
    · simpa using hb
    · intro j hj
      show _ ≤ (pivots.map (fun p => dot (vecs.getD i []) (vecs.getD p []))).getD b 0
      rw [hvb]
      exact hmax j (by simpa using hj)
    · intro j hj
      show _ < (pivots.map (fun p => dot (vecs.getD i []) (vecs.getD p []))).getD b 0
      rw [hvb]
      exact hfirst j (by simpa using hj)
    · show (1 : ℚ) - val
        = 1 - (pivots.map (fun p => dot (vecs.getD i []) (vecs.getD p []))).getD b 0
      rw [hvb]

/-- Claim C5: with a non-empty pivot list the assigner records exactly one
assignment per chunk (one output pair per vector); the chosen index
maximises the similarity row, the first occurrence (lowest pivot local
index) wins ties, and the recorded distance is 1 minus that maximum
similarity. -/
theorem C5_assignment (vecs : List Vec) (pivots : List ℕ)
    (hp : pivots ≠ []) (i : ℕ) (hi : i < vecs.length) :
    (assign_to_nearest_pivot vecs pivots).length = vecs.length ∧
      ((assign_to_nearest_pivot vecs pivots).getD i (0, 0)).1 < pivots.length ∧
      (∀ j, j < pivots.length →
        (pivots.map (fun p => dot (vecs.getD i []) (vecs.getD p []))).getD j 0
          ≤ (pivots.map (fun p => dot (vecs.getD i []) (vecs.getD p []))).getD
              ((assign_to_nearest_pivot vecs pivots).getD i (0, 0)).1 0) ∧
      (∀ j, j < ((assign_to_nearest_pivot vecs pivots).getD i (0, 0)).1 →
        (pivots.map (fun p => dot (vecs.getD i []) (vecs.getD p []))).getD j 0
          < (pivots.map (fun p => dot (vecs.getD i []) (vecs.getD p []))).getD
              ((assign_to_nearest_pivot vecs pivots).getD i (0, 0)).1 0) ∧
      ((assign_to_nearest_pivot vecs pivots).getD i (0, 0)).2
        = 1 - (pivots.map (fun p => dot (vecs.getD i []) (vecs.getD p []))).getD
            ((assign_to_nearest_pivot vecs pivots).getD i (0, 0)).1 0 :=
  assign_spec vecs pivots hp i hi

/-- Claim C5 witness: corpusA with the stored pivot list [0, 2] and chunk
1 satisfies the hypotheses, and the instantiated guarantees follow. -/
theorem C5_assignment_witness :
    (assign_to_nearest_pivot corpusA [0, 2]).length = corpusA.length ∧
      ((assign_to_nearest_pivot corpusA [0, 2]).getD 1 (0, 0)).1
        < ([0, 2] : List ℕ).length := by
  obtain ⟨h1, h2, h3, h4, h5⟩ := C5_assignment corpusA [0, 2]
    (by with_unfolding_all decide) 1 (by with_unfolding_all decide)
  exact ⟨h1, h2⟩

/-- Claim C7: every chunk's normalized novelty, normalized redundancy and
energy = novelty * (1 - redundancy) lie in [0, 1], and whenever a score's
corpus-wide max - min is below the 1e-8 guard its min-max normalization is
0 for every chunk. -/
theorem C7_scores_in_range (nov red : List ℚ) (i : ℕ)
    (hi : i < nov.length) (hir : i < red.length) :
    (0 ≤ (minmax_norm nov).getD i 0 ∧ (minmax_norm nov).getD i 0 ≤ 1) ∧
      (0 ≤ (minmax_norm red).getD i 0 ∧ (minmax_norm red).getD i 0 ≤ 1) ∧
      (0 ≤ (energyOf (minmax_norm nov) (minmax_norm red)).getD i 0 ∧
        (energyOf (minmax_norm nov) (minmax_norm red)).getD i 0 ≤ 1) ∧
      (listMax nov - listMin nov < EPS → (minmax_norm nov).getD i 0 = 0) ∧
      (listMax red - listMin red < EPS → (minmax_norm red).getD i 0 = 0) := by
  obtain ⟨ha0, ha1⟩ := minmax_norm_bounds nov i hi
  obtain ⟨hb0, hb1⟩ := minmax_norm_bounds red i hir
  have hA : i < (minmax_norm nov).length := by
    rw [minmax_norm_length]
    exact hi
  have hB : i < (minmax_norm red).length := by
    rw [minmax_norm_length]
    exact hir
  have hEi : i < (energyOf (minmax_norm nov) (minmax_norm red)).length := by
    unfold energyOf
    rw [List.length_zipWith]
    exact lt_min hA hB
  have hEget : (energyOf (minmax_norm nov) (minmax_norm red)).getD i 0
      = (minmax_norm nov).getD i 0 * (1 - (minmax_norm red).getD i 0) := by
    unfold energyOf
    rw [List.getD_eq_getElem _ _ (by simpa [energyOf] using hEi),
      List.getElem_zipWith, List.getD_eq_getElem _ _ hA,
      List.getD_eq_getElem _ _ hB]
  refine ⟨⟨ha0, ha1⟩, ⟨hb0, hb1⟩, ?_, ?_, ?_⟩
  · rw [hEget]
    constructor
    · exact mul_nonneg ha0 (by linarith)
    · exact mul_le_one₀ ha1 (by linarith) (by linarith)
  · intro hz
    exact minmax_norm_zero_var nov i hi hz
  · intro hz
    exact minmax_norm_zero_var red i hir hz

/-- Claim C7 witness: the hypotheses hold for the score lists [0, 1] and
[1/2, 1] at chunk 0, and the instantiated bounds follow. -/
theorem C7_scores_in_range_witness :
    (0 ≤ (minmax_norm [0, 1]).getD 0 0 ∧ (minmax_norm [0, 1]).getD 0 0 ≤ 1) ∧
      (0 ≤ (minmax_norm [1/2, 1]).getD 0 0
        ∧ (minmax_norm [1/2, 1]).getD 0 0 ≤ 1) ∧
      (0 ≤ (energyOf (minmax_norm [0, 1]) (minmax_norm [1/2, 1])).getD 0 0 ∧
        (energyOf (minmax_norm [0, 1]) (minmax_norm [1/2, 1])).getD 0 0 ≤ 1) := by
  obtain ⟨h1, h2, h3, h4, h5⟩ := C7_scores_in_range [0, 1] [1/2, 1] 0
    (by with_unfolding_all decide) (by with_unfolding_all decide)
  exact ⟨h1, h2, h3⟩

/-- Claim C8: when every vector has the same dimension and exact unit
norm, the distance the assigner records at a pivot's own chunk index is
exactly 0: its row contains the self similarity 1 and no similarity
between unit vectors exceeds 1. -/
theorem C8_pivot_self_distance (vecs : List Vec) (pivots : List ℕ) (d : ℕ)
    (hdim : ∀ v ∈ vecs, v.length = d)
    (hunit : ∀ v ∈ vecs, dot v v = 1)
    (hpb : ∀ p ∈ pivots, p < vecs.length)
    (j : ℕ) (hj : j < pivots.length) :
    ((assign_to_nearest_pivot vecs pivots).getD (pivots.getD j 0) (0, 0)).2
      = 0 := by
  have hp : pivots ≠ [] := by
    intro hcon
    rw [hcon] at hj
    simp at hj
  have hgmem : pivots.getD j 0 ∈ pivots := by
    rw [List.getD_eq_getElem _ _ hj]
    exact List.getElem_mem hj
  have hgi : pivots.getD j 0 < vecs.length := hpb _ hgmem
  obtain ⟨hlen, hblt, hmax, hfirst, hdist⟩ :=
    assign_spec vecs pivots hp (pivots.getD j 0) hgi
  have hvmem : vecs.getD (pivots.getD j 0) [] ∈ vecs := by
    rw [List.getD_eq_getElem _ _ hgi]
    exact List.getElem_mem hgi
  have hsim_getD : ∀ m, m < pivots.length →
      (pivots.map (fun p =>
        dot (vecs.getD (pivots.getD j 0) []) (vecs.getD p []))).getD m 0
        = dot (vecs.getD (pivots.getD j 0) []) (vecs.getD (pivots.getD m 0) []) := by
    intro m hm
    rw [List.getD_eq_getElem _ _ (by simpa using hm), List.getElem_map,
      List.getD_eq_getElem _ _ hm]
  have hself : (pivots.map (fun p =>
      dot (vecs.getD (pivots.getD j 0) []) (vecs.getD p []))).getD j 0 = 1 := by
    rw [hsim_getD j hj]
    exact hunit _ hvmem
  have hb_le_one : (pivots.map (fun p =>
      dot (vecs.getD (pivots.getD j 0) []) (vecs.getD p []))).getD
        ((assign_to_nearest_pivot vecs pivots).getD (pivots.getD j 0) (0, 0)).1 0
        ≤ 1 := by
    rw [hsim_getD _ hblt]
    have hbmem : pivots.getD
        ((assign_to_nearest_pivot vecs pivots).getD (pivots.getD j 0) (0, 0)).1 0
        ∈ pivots := by
      rw [List.getD_eq_getElem _ _ hblt]
      exact List.getElem_mem hblt
    have hbvec : vecs.getD (pivots.getD
        ((assign_to_nearest_pivot vecs pivots).getD (pivots.getD j 0) (0, 0)).1 0)
        [] ∈ vecs := by
      rw [List.getD_eq_getElem _ _ (hpb _ hbmem)]
      exact List.getElem_mem (hpb _ hbmem)
    exact dot_le_one _ _ (by rw [hdim _ hvmem, hdim _ hbvec])
      (hunit _ hvmem) (hunit _ hbvec)
  have hb_ge_one : (1 : ℚ) ≤ (pivots.map (fun p =>
      dot (vecs.getD (pivots.getD j 0) []) (vecs.getD p []))).getD
        ((assign_to_nearest_pivot vecs pivots).getD (pivots.getD j 0) (0, 0)).1
        0 := by
    rw [← hself]
    exact hmax j hj
  rw [hdist]
  linarith

/-- Claim C8 witness: the two-vector orthonormal corpus [[1,0],[0,1]] with
pivots [0, 1] satisfies the dimension, unit-norm and bound hypotheses, and
the pivot at local index 0 records distance 0. -/
theorem C8_pivot_self_distance_witness :
    ((assign_to_nearest_pivot [[1, 0], [0, 1]] [0, 1]).getD
      (([0, 1] : List ℕ).getD 0 0) (0, 0)).2 = 0 :=
  C8_pivot_self_distance [[1, 0], [0, 1]] [0, 1] 2
    (by with_unfolding_all decide) (by with_unfolding_all decide)
    (by with_unfolding_all decide) 0 (by with_unfolding_all decide)
